import Mathlib

/-!
Shallow embedding of the chessfriends tournament library
(source: src/chessfriends.py) and verification of the frozen claims.

The embedding keeps the Python names (`round_robin_pairing`,
`add_players`, `reset_scoreboard`, `evaluate_scoreboard`,
`evaluate_match`, `swap_opponents`, `assign_handicap`).  Python mutable
state becomes explicit state passing on a `CfTournament` record; Python
exceptions (IndexError on `players[0]`, TypeError in `add_players`,
KeyError on scoreboard access) become `Option`/error flags.
-/

namespace Chessfriends

/-- Embedding of the `MatchResult` enum of chessfriends.py. -/
inductive MatchResult where
  | ONGOING
  | WHITE_WINS
  | BLACK_WINS
  | DRAW
deriving DecidableEq, Inhabited

/-- Embedding of `CfPlayer`: first name, last name, rating.  The rating
setter rejects negative values, so a constructed player always carries a
nonnegative rating; the claims under verification never construct a
negative rating, so the validation is not modelled separately.  Python
keys scoreboards by object identity; the claims quantify over tournaments
whose registered players are pairwise distinct, which structural equality
together with a `Nodup` hypothesis captures. -/
structure CfPlayer where
  first_name : String
  last_name : String
  rating : ℤ
deriving DecidableEq, Inhabited

/-- Embedding of `CfMatch`: the ordered opponent pair (position 0 = white),
the result, and the per-side time limits.  The Python back-reference to the
owning tournament is dropped (it is only stored, never read by the code
under verification). -/
structure CfMatch where
  opponents : CfPlayer × CfPlayer
  result : MatchResult
  time_limits : ℤ × ℤ
deriving DecidableEq, Inhabited

/-- Embedding of `CfMatch.assign_handicap`: `time_handicap = int(rating_diff * 0.025)`.
Since `0.025 = 1/40` and Python `int()` truncates toward zero, the
handicap is the truncated quotient `rating_diff.tdiv 40` (the float
product is exact at every rating pair the claims evaluate; in particular
`-100 * 0.025 = -2.5` and `int(-2.5) = -2`).  If `rating_diff >= 0` the
handicap is subtracted from side 0's limit, otherwise added (it is
negative) to side 1's limit. -/
def CfMatch.assign_handicap (m : CfMatch) : CfMatch :=
  let rating_diff := m.opponents.1.rating - m.opponents.2.rating
  let time_handicap := rating_diff.tdiv 40
  if rating_diff ≥ 0 then
    { m with time_limits := (m.time_limits.1 - time_handicap, m.time_limits.2) }
  else
    { m with time_limits := (m.time_limits.1, m.time_limits.2 + time_handicap) }

/-- Embedding of `CfMatch.__init__`: result starts `ONGOING`, time limits
start at `[60, 60]`, then `assign_handicap` runs. -/
def CfMatch.init (opponents : CfPlayer × CfPlayer) : CfMatch :=
  CfMatch.assign_handicap { opponents := opponents, result := MatchResult.ONGOING,
                            time_limits := (60, 60) }

/-- Embedding of `CfMatch.swap_opponents`: exchanges the two opponents and
the two time limits. -/
def CfMatch.swap_opponents (m : CfMatch) : CfMatch :=
  { m with opponents := (m.opponents.2, m.opponents.1),
           time_limits := (m.time_limits.2, m.time_limits.1) }

/-- The Python scoreboard dict `player -> {games, score}`, embedded as an
association list in player insertion order. -/
abbrev Scoreboard := List (CfPlayer × ℕ × ℤ)

/-- Lookup in the scoreboard dict (`self.scoreboard[player]`). -/
def sbLookup : Scoreboard → CfPlayer → Option (ℕ × ℤ)
  | [], _ => none
  | (q, st) :: rest, p => if q = p then some st else sbLookup rest p

/-- The scoreboard mutation performed by one iteration of the loop in
`evaluate_match`: `scoreboard[player]["games"] += 1` and
`scoreboard[player]["score"] += delta`.  `none` models the KeyError raised
when the player has no scoreboard entry. -/
def sbBump : Scoreboard → CfPlayer → ℤ → Option Scoreboard
  | [], _, _ => none
  | (q, g, s) :: rest, p, delta =>
    if q = p then some ((q, g + 1, s + delta) :: rest)
    else (sbBump rest p delta).map (fun r => (q, g, s) :: r)

/-- Embedding of `CfTournament`.  The start/end dates take no part in any
claim and are omitted; `score_win`/`score_draw` are initialized to 3 and 1
by `__init__`. -/
structure CfTournament where
  players : List CfPlayer
  matchdays : List (List CfMatch)
  score_win : ℤ
  score_draw : ℤ
  scoreboard : Scoreboard
deriving DecidableEq, Inhabited

/-- A value passed to `add_players`, either directly or inside a list
argument: a `CfPlayer` or anything else (`nonPlayer`, which covers nested
lists as well, since the inner loop only tests `isinstance(_, CfPlayer)`). -/
inductive PyObj where
  | player (p : CfPlayer)
  | nonPlayer
deriving DecidableEq, Inhabited

/-- One variadic argument of `add_players`: a plain object or a list. -/
inductive AddArg where
  | obj (o : PyObj)
  | list (l : List PyObj)
deriving DecidableEq, Inhabited

/-- The inner loop of `add_players` over the elements of a list argument:
appends `CfPlayer` elements one at a time and raises TypeError (flag
`true`) at the first non-player, keeping the appends already made. -/
def addPlayersList (roster : List CfPlayer) : List PyObj → List CfPlayer × Bool
  | [] => (roster, false)
  | PyObj.player p :: rest => addPlayersList (roster ++ [p]) rest
  | PyObj.nonPlayer :: _ => (roster, true)

/-- Embedding of `CfTournament.add_players` acting on the roster: processes
the variadic arguments left to right, appending players and raising
TypeError (flag `true`) at the first ill-typed argument or list element;
state already appended is kept, mirroring in-place `list.append`. -/
def add_players (roster : List CfPlayer) : List AddArg → List CfPlayer × Bool
  | [] => (roster, false)
  | AddArg.list l :: rest =>
    match addPlayersList roster l with
    | (roster2, true) => (roster2, true)
    | (roster2, false) => add_players roster2 rest
  | AddArg.obj (PyObj.player p) :: rest => add_players (roster ++ [p]) rest
  | AddArg.obj PyObj.nonPlayer :: _ => (roster, true)

/-- Embedding of `CfTournament.reset_scoreboard`: rebuilds the scoreboard
with a `(games 0, score 0)` entry per registered player. -/
def reset_scoreboard (t : CfTournament) : CfTournament :=
  { t with scoreboard := t.players.map (fun p => (p, 0, 0)) }

/-- One in-place append to the day list at index `d`
(`self.matchdays[matchday].append(...)`).  `List.set` leaves the list
unchanged on an out-of-range index; every index the pairing loop uses is
in range, because the list has grown past `matchday` by the time it is
read. -/
def append_to_day (M : List (List CfMatch)) (d : ℕ) (mt : CfMatch) : List (List CfMatch) :=
  M.set d (M.getD d [] ++ [mt])

/-- The in-place side swap `self.matchdays[matchday][i].swap_opponents()`
of the match stored at in-day index `i` of the day list at index `d`. -/
def swap_in_day (M : List (List CfMatch)) (d i : ℕ) : List (List CfMatch) :=
  M.set d ((M.getD d []).set i ((M.getD d []).getD i default).swap_opponents)

/-- The body of the inner `for i in range(1, n // 2)` loop of
`round_robin_pairing`: append the rotation match for slot `i` to the day
list at index `d`, then swap the sides of the match stored at in-day
index `i` when `i` is even.  On a call with an initially empty matchday
list that stored match is the one just appended; on later calls the day
list at index `d` is a pre-existing day, so the swap toggles a match of
an earlier schedule instead. -/
def inner_step (rot : List CfPlayer) (n d : ℕ) (Mi : List (List CfMatch)) (i : ℕ) :
    List (List CfMatch) :=
  let Ma := append_to_day Mi d (CfMatch.init
    (rot.getD (n - i - 1 + d) default, rot.getD (d + i) default))
  if i % 2 = 0 then swap_in_day Ma d i else Ma

/-- One iteration of the outer `for matchday in range(0, n - 1)` loop:
`self.matchdays.append([])`, then append the anchor match to the day
list at index `matchday` — which is the freshly appended empty list only
when the matchday list started empty, and an older day otherwise — swap
the match stored at in-day index 0 when `matchday` is odd, and run the
inner loop. -/
def round_robin_step (fixed : CfPlayer) (rot : List CfPlayer) (n : ℕ)
    (M : List (List CfMatch)) (d : ℕ) : List (List CfMatch) :=
  let M1 := M ++ [[]]
  let M2 := append_to_day M1 d (CfMatch.init (fixed, rot.getD d default))
  let M3 := if d % 2 ≠ 0 then swap_in_day M2 d 0 else M2
  (List.range' 1 (n / 2 - 1)).foldl (inner_step rot n d) M3

/-- Embedding of `CfTournament.round_robin_pairing`.  `none` models the
IndexError `self.players[0]` raises on an empty roster.  The rotation
buffer is `players[1:]` duplicated end to end, exactly as in the source.
The outer loop threads the mutable `self.matchdays` list through
`round_robin_step`: each iteration appends an empty day list and then
writes through index `matchday`, so on a tournament whose matchday list
starts empty the `d`-th iteration fills the day it just appended, while
on repeated calls it appends an empty day yet writes the new matches
into the pre-existing day at index `matchday` and re-toggles the sides
of that day's first matches.  The scoreboard is reset at the end. -/
def round_robin_pairing (t : CfTournament) : Option CfTournament :=
  let number_of_players := t.players.length
  match t.players with
  | [] => none
  | fixed_player :: tail =>
    let rotating_players := tail ++ tail
    let new_matchdays := (List.range (number_of_players - 1)).foldl
      (round_robin_step fixed_player rotating_players number_of_players) t.matchdays
    some (reset_scoreboard { t with matchdays := new_matchdays })

/-- The bonus scores computed by the `if`-chain of `evaluate_match` for a
result, as a function of the tournament's `score_win` and `score_draw`
configuration (the `(0, 0)` fallback is unreachable for decided results). -/
def match_scores (sw sd : ℤ) (r : MatchResult) : ℤ × ℤ :=
  if r = MatchResult.WHITE_WINS then (sw, 0)
  else if r = MatchResult.BLACK_WINS then (0, sw)
  else if r = MatchResult.DRAW then (sd, sd)
  else (0, 0)

/-- Embedding of `CfTournament.evaluate_match`: returns the updated
tournament together with the opponent pair and the awarded scores.
An `ONGOING` match returns early with scores `(0, 0)` and an untouched
scoreboard; otherwise the loop over the two opponents increments each
player's games by 1 and score by the awarded amount.  `none` models the
KeyError raised when an opponent has no scoreboard entry (the partial
update preceding such an error is not observed by any claim). -/
def evaluate_match (t : CfTournament) (m : CfMatch) :
    Option (CfTournament × (CfPlayer × CfPlayer) × (ℤ × ℤ)) :=
  if m.result = MatchResult.ONGOING then some (t, m.opponents, (0, 0))
  else
    let scores := match_scores t.score_win t.score_draw m.result
    (sbBump t.scoreboard m.opponents.1 scores.1).bind (fun sb1 =>
      (sbBump sb1 m.opponents.2 scores.2).map (fun sb2 =>
        ({ t with scoreboard := sb2 }, m.opponents, scores)))

/-- Embedding of `CfTournament.evaluate_scoreboard`: resets the scoreboard
and then evaluates every match of every matchday in schedule order. -/
def evaluate_scoreboard (t : CfTournament) : Option CfTournament :=
  List.foldlM (fun acc m => (evaluate_match acc m).map (fun r => r.1))
    (reset_scoreboard t) t.matchdays.flatten

/-- Number of matches across a schedule whose unordered opponent pair is
exactly the unordered pair of the two given players. -/
def pairCount (days : List (List CfMatch)) (p q : CfPlayer) : ℕ :=
  days.flatten.countP
    (fun m => decide (m.opponents = (p, q) ∨ m.opponents = (q, p)))

/-- k-fold iteration of `round_robin_pairing` (k consecutive calls). -/
def callRoundRobin : ℕ → CfTournament → Option CfTournament
  | 0, t => some t
  | k + 1, t => (round_robin_pairing t).bind (callRoundRobin k)

/-! ### Index-level description of the circle method

Matchday `d`, slot `i` of the generated schedule pairs the players at the
two roster indices `idxA n d i` and `idxB n d i` (in some side order):
slot 0 pairs the anchor (index 0) with rotation-buffer position `d`, and
slot `i ≥ 1` pairs buffer positions `n - i - 1 + d` and `d + i`, where
buffer position `j` holds the player of roster index `1 + j % (n - 1)`. -/

/-- Roster index of the first participant of slot `i` on matchday `d`. -/
def idxA (n d i : ℕ) : ℕ :=
  if i = 0 then 0 else 1 + (n - i - 1 + d) % (n - 1)

/-- Roster index of the second participant of slot `i` on matchday `d`. -/
def idxB (n d i : ℕ) : ℕ :=
  if i = 0 then 1 + d % (n - 1) else 1 + (d + i) % (n - 1)

/-- Slot `(d, i)` schedules exactly the unordered roster-index pair
`(a, b)`. -/
def pairHit (n d i a b : ℕ) : Prop :=
  (idxA n d i = a ∧ idxB n d i = b) ∨ (idxA n d i = b ∧ idxB n d i = a)

instance (n d i a b : ℕ) : Decidable (pairHit n d i a b) := by
  unfold pairHit
  infer_instance

lemma pairHit_symm {n d i a b : ℕ} (h : pairHit n d i a b) : pairHit n d i b a := by
  unfold pairHit at h ⊢
  tauto

lemma gcd_two_of_odd {m : ℕ} (hm : m % 2 = 1) : Nat.gcd m 2 = 1 := by
  rw [Nat.gcd_comm, Nat.gcd_rec, hm, Nat.gcd_one_left]

/-- Uniqueness half of the round-robin coverage argument: two slots of the
schedule hitting the same unordered index pair are the same slot. -/
lemma pairHit_unique {n : ℕ} (hn : 2 ≤ n) (he : n % 2 = 0) {a b d i d' i' : ℕ}
    (hd : d < n - 1) (hi : i < n / 2) (hd' : d' < n - 1) (hi' : i' < n / 2)
    (h1 : pairHit n d i a b) (h2 : pairHit n d' i' a b) : d = d' ∧ i = i' := by
  have hm2 : (n - 1) % 2 = 1 := by omega
  have hgcd : Nat.gcd (n - 1) 2 = 1 := gcd_two_of_odd hm2
  unfold pairHit idxA idxB at h1 h2
  by_cases hi0 : i = 0 <;> by_cases hi0' : i' = 0
  · -- both slots are the anchor slot
    subst hi0; subst hi0'
    simp only [reduceIte, Nat.mod_eq_of_lt hd, Nat.mod_eq_of_lt hd'] at h1 h2
    omega
  · -- anchor slot versus rotation slot: the anchor pair contains index 0,
    -- a rotation pair never does
    subst hi0
    simp only [reduceIte, if_neg hi0', Nat.mod_eq_of_lt hd] at h1 h2
    omega
  · subst hi0'
    simp only [reduceIte, if_neg hi0, Nat.mod_eq_of_lt hd'] at h1 h2
    omega
  · -- two rotation slots
    simp only [if_neg hi0, if_neg hi0'] at h1 h2
    have hi1 : 1 ≤ i := by omega
    have hi1' : 1 ≤ i' := by omega
    have huv : ((n - i - 1 + d) % (n - 1) = (n - i' - 1 + d') % (n - 1) ∧
        (d + i) % (n - 1) = (d' + i') % (n - 1)) ∨
        ((n - i - 1 + d) % (n - 1) = (d' + i') % (n - 1) ∧
        (d + i) % (n - 1) = (n - i' - 1 + d') % (n - 1)) := by omega
    have hdd : d = d' := by
      rcases huv with ⟨hu, hv⟩ | ⟨hu, hv⟩
      · have hu' : Nat.ModEq (n - 1) (n - i - 1 + d) (n - i' - 1 + d') := hu
        have hv' : Nat.ModEq (n - 1) (d + i) (d' + i') := hv
        have hadd := Nat.ModEq.add hu' hv'
        have e1 : (n - i - 1 + d) + (d + i) = (n - 1) + 2 * d := by omega
        have e2 : (n - i' - 1 + d') + (d' + i') = (n - 1) + 2 * d' := by omega
        rw [e1, e2] at hadd
        have h2d : 2 * d ≡ 2 * d' [MOD n - 1] := Nat.ModEq.add_left_cancel' (n - 1) hadd
        have hmod : d ≡ d' [MOD n - 1] := Nat.ModEq.cancel_left_of_coprime hgcd h2d
        have h3 := hmod
        unfold Nat.ModEq at h3
        rw [Nat.mod_eq_of_lt hd, Nat.mod_eq_of_lt hd'] at h3
        exact h3
      · have hu' : Nat.ModEq (n - 1) (n - i - 1 + d) (d' + i') := hu
        have hv' : Nat.ModEq (n - 1) (d + i) (n - i' - 1 + d') := hv
        have hadd := Nat.ModEq.add hu' hv'
        have e1 : (n - i - 1 + d) + (d + i) = (n - 1) + 2 * d := by omega
        have e2 : (d' + i') + (n - i' - 1 + d') = (n - 1) + 2 * d' := by omega
        rw [e1, e2] at hadd
        have h2d : 2 * d ≡ 2 * d' [MOD n - 1] := Nat.ModEq.add_left_cancel' (n - 1) hadd
        have hmod : d ≡ d' [MOD n - 1] := Nat.ModEq.cancel_left_of_coprime hgcd h2d
        have h3 := hmod
        unfold Nat.ModEq at h3
        rw [Nat.mod_eq_of_lt hd, Nat.mod_eq_of_lt hd'] at h3
        exact h3
    subst hdd
    refine ⟨rfl, ?_⟩
    rcases huv with ⟨hu, hv⟩ | ⟨hu, hv⟩
    · -- same orientation: i ≡ i' forces i = i'
      have hvv : d + i ≡ d + i' [MOD n - 1] := hv
      have hii : i ≡ i' [MOD n - 1] := Nat.ModEq.add_left_cancel' d hvv
      unfold Nat.ModEq at hii
      rw [Nat.mod_eq_of_lt (by omega), Nat.mod_eq_of_lt (by omega)] at hii
      exact hii
    · -- crossed orientation: forces n - 1 to divide i + i', impossible
      have hvv : d + i ≡ n - i' - 1 + d [MOD n - 1] := hv
      have hstep : d + i + (i' + 1) ≡ n - i' - 1 + d + (i' + 1) [MOD n - 1] :=
        Nat.ModEq.add_right (i' + 1) hvv
      have e1 : d + i + (i' + 1) = (d + 1) + (i + i') := by omega
      have e2 : n - i' - 1 + d + (i' + 1) = (d + 1) + (n - 1) := by omega
      rw [e1, e2] at hstep
      have hcan : i + i' ≡ n - 1 [MOD n - 1] := Nat.ModEq.add_left_cancel' (d + 1) hstep
      have hzero : i + i' ≡ 0 [MOD n - 1] :=
        hcan.trans (Nat.modEq_zero_iff_dvd.mpr dvd_rfl)
      have hdvd : (n - 1) ∣ (i + i') := Nat.modEq_zero_iff_dvd.mp hzero
      have := Nat.le_of_dvd (by omega) hdvd
      omega

/-- Existence half, for an ordered index pair `a < b`. -/
lemma pairHit_exists_of_lt {n : ℕ} (hn : 2 ≤ n) (he : n % 2 = 0) {a b : ℕ}
    (hb : b < n) (hab : a < b) :
    ∃ d i, d < n - 1 ∧ i < n / 2 ∧ pairHit n d i a b := by
  by_cases ha0 : a = 0
  · -- anchor pair: matchday b - 1, slot 0
    refine ⟨b - 1, 0, by omega, by omega, Or.inl ?_⟩
    unfold idxA idxB
    rw [if_pos rfl, if_pos rfl, Nat.mod_eq_of_lt (by omega)]
    omega
  · have ha1 : 1 ≤ a := by omega
    by_cases hpar : (b - a) % 2 = 0
    · -- even index gap: slot (b - a) / 2 of matchday a - 1 + (b - a) / 2
      refine ⟨a - 1 + (b - a) / 2, (b - a) / 2, by omega, by omega, Or.inl ?_⟩
      unfold idxA idxB
      rw [if_neg (by omega), if_neg (by omega)]
      have eA : n - (b - a) / 2 - 1 + (a - 1 + (b - a) / 2) = (n - 1) + (a - 1) := by omega
      have eB : a - 1 + (b - a) / 2 + (b - a) / 2 = b - 1 := by omega
      rw [eA, eB, Nat.add_mod_left, Nat.mod_eq_of_lt (by omega), Nat.mod_eq_of_lt (by omega)]
      omega
    · -- odd index gap: slot (n - 1 - (b - a)) / 2, matchday (b - 1 + slot) mod (n - 1)
      refine ⟨(b - 1 + (n - 1 - (b - a)) / 2) % (n - 1),
        (n - 1 - (b - a)) / 2, Nat.mod_lt _ (by omega), by omega, Or.inr ?_⟩
      unfold idxA idxB
      rw [if_neg (by omega), if_neg (by omega)]
      by_cases hcase : b - 1 + (n - 1 - (b - a)) / 2 < n - 1
      · rw [Nat.mod_eq_of_lt hcase]
        have eA : n - (n - 1 - (b - a)) / 2 - 1 + (b - 1 + (n - 1 - (b - a)) / 2) =
            (n - 1) + (b - 1) := by omega
        have eB : b - 1 + (n - 1 - (b - a)) / 2 + (n - 1 - (b - a)) / 2 =
            (n - 1) + (a - 1) := by omega
        rw [eA, eB, Nat.add_mod_left, Nat.add_mod_left,
          Nat.mod_eq_of_lt (by omega), Nat.mod_eq_of_lt (by omega)]
        omega
      · have hred : (b - 1 + (n - 1 - (b - a)) / 2) % (n - 1) =
            b - 1 + (n - 1 - (b - a)) / 2 - (n - 1) := by
          rw [Nat.mod_eq_sub_mod (by omega), Nat.mod_eq_of_lt (by omega)]
        rw [hred]
        have eA : n - (n - 1 - (b - a)) / 2 - 1 +
            (b - 1 + (n - 1 - (b - a)) / 2 - (n - 1)) = b - 1 := by omega
        have eB : b - 1 + (n - 1 - (b - a)) / 2 - (n - 1) + (n - 1 - (b - a)) / 2 =
            a - 1 := by omega
        rw [eA, eB, Nat.mod_eq_of_lt (by omega), Nat.mod_eq_of_lt (by omega)]
        omega

/-- Existence half for an arbitrary unordered index pair. -/
lemma pairHit_exists {n : ℕ} (hn : 2 ≤ n) (he : n % 2 = 0) {a b : ℕ}
    (ha : a < n) (hb : b < n) (hab : a ≠ b) :
    ∃ d i, d < n - 1 ∧ i < n / 2 ∧ pairHit n d i a b := by
  rcases Nat.lt_or_ge a b with h | h
  · exact pairHit_exists_of_lt hn he hb h
  · obtain ⟨d, i, hd, hi, hhit⟩ := pairHit_exists_of_lt (a := b) (b := a) hn he ha (by omega)
    exact ⟨d, i, hd, hi, pairHit_symm hhit⟩

/-! ### Counting helpers -/

lemma countP_range_eq_zero {k : ℕ} {q : ℕ → Bool} (h : ∀ i, i < k → q i = false) :
    (List.range k).countP q = 0 := by
  rw [List.countP_eq_zero]
  intro i hi
  rw [List.mem_range] at hi
  simp [h i hi]

lemma countP_range_eq_one {k j : ℕ} {q : ℕ → Bool} (hj : j < k) (hqj : q j = true)
    (hu : ∀ i, i < k → q i = true → i = j) : (List.range k).countP q = 1 := by
  induction k with
  | zero => omega
  | succ k ih =>
    rw [List.range_succ, List.countP_append]
    by_cases hjk : j = k
    · have h0 : (List.range k).countP q = 0 := countP_range_eq_zero (fun i hi => by
        cases hqi : q i
        · rfl
        · exact absurd (hu i (by omega) hqi) (by omega))
      subst hjk
      rw [h0]
      simp [hqj]
    · have hk : q k = false := by
        cases hqk : q k
        · rfl
        · exact absurd ((hu k (by omega) hqk).symm) hjk
      rw [ih (by omega) (fun i hi hqi => hu i (by omega) hqi)]
      simp [hk]

lemma sum_map_range_eq_single {m : ℕ} (d0 : ℕ) {f : ℕ → ℕ} (hd : d0 < m) (h1 : f d0 = 1)
    (h0 : ∀ d, d < m → d ≠ d0 → f d = 0) : ((List.range m).map f).sum = 1 := by
  induction m with
  | zero => omega
  | succ m ih =>
    rw [List.range_succ, List.map_append, List.sum_append]
    by_cases hdm : d0 = m
    · have hz : ((List.range m).map f).sum = 0 := List.sum_eq_zero (by
        intro x hx
        rw [List.mem_map] at hx
        obtain ⟨d, hdmem, rfl⟩ := hx
        rw [List.mem_range] at hdmem
        exact h0 d (by omega) (by omega))
      subst hdm
      rw [hz]
      simp [h1]
    · rw [ih (by omega) (fun d hdlt hne => h0 d (by omega) hne)]
      simp [h0 m (by omega) (fun hc => hdm hc.symm)]

/-! ### The generated schedule in index form -/

/-- The base (pre-swap) opponent pair of slot `i` on matchday `d`. -/
def dayBase (fixed : CfPlayer) (rot : List CfPlayer) (n d i : ℕ) : CfPlayer × CfPlayer :=
  if i = 0 then (fixed, rot.getD d default)
  else (rot.getD (n - i - 1 + d) default, rot.getD (d + i) default)

/-- The match placed at slot `i` of matchday `d` by `round_robin_pairing`:
`CfMatch.init` of the base pair, sides swapped when `d` is odd (slot 0)
respectively `i` is even (later slots). -/
def dayMatch (fixed : CfPlayer) (rot : List CfPlayer) (n d i : ℕ) : CfMatch :=
  if i = 0 then
    let fm := CfMatch.init (fixed, rot.getD d default)
    if d % 2 ≠ 0 then fm.swap_opponents else fm
  else
    let fm := CfMatch.init (rot.getD (n - i - 1 + d) default, rot.getD (d + i) default)
    if i % 2 = 0 then fm.swap_opponents else fm

/-- The anchor match of matchday `d` as the source constructs it on a
day list the iteration owns: `CfMatch.init` of the anchor pair, sides
swapped when `d` is odd. -/
def anchorMatch (fixed : CfPlayer) (rot : List CfPlayer) (d : ℕ) : CfMatch :=
  let first_match := CfMatch.init (fixed, rot.getD d default)
  if d % 2 ≠ 0 then first_match.swap_opponents else first_match

/-- The rotation match of slot `i >= 1` of matchday `d` as the source
constructs it on a day list the iteration owns: `CfMatch.init` of the
rotation pair, sides swapped when `i` is even. -/
def innerMatch (rot : List CfPlayer) (n d i : ℕ) : CfMatch :=
  let fm := CfMatch.init (rot.getD (n - i - 1 + d) default, rot.getD (d + i) default)
  if i % 2 = 0 then fm.swap_opponents else fm

/-- The complete day list one outer-loop iteration builds when it owns a
fresh empty day (the regime of a call on an empty matchday list). -/
def buildDay (fixed : CfPlayer) (rot : List CfPlayer) (n d : ℕ) : List CfMatch :=
  anchorMatch fixed rot d :: (List.range' 1 (n / 2 - 1)).map (innerMatch rot n d)

/-- The matchdays generated by a `round_robin_pairing` call on a
tournament whose matchday list starts empty: this is the only regime in
which the day lists the loop appends are the ones it then fills. -/
def rrDays : List CfPlayer → List (List CfMatch)
  | [] => []
  | fixed_player :: tail =>
    (List.range ((fixed_player :: tail).length - 1)).map
      (buildDay fixed_player (tail ++ tail) (fixed_player :: tail).length)

/-- For a roster of at least two players each generated matchday is the
map of `dayMatch` over the slot range. -/
lemma rrDays_cons_eq (fixed : CfPlayer) (tail : List CfPlayer) (hn : 2 ≤ tail.length + 1) :
    rrDays (fixed :: tail) =
      (List.range (tail.length + 1 - 1)).map (fun d =>
        (List.range ((tail.length + 1) / 2)).map
          (dayMatch fixed (tail ++ tail) (tail.length + 1) d)) := by
  unfold rrDays
  simp only [List.length_cons]
  apply List.map_congr_left
  intro d hd
  unfold buildDay
  have hhalf : (tail.length + 1) / 2 = ((tail.length + 1) / 2 - 1) + 1 := by omega
  rw [hhalf, List.range_eq_range', List.range'_succ]
  rw [List.map_cons]
  have hzero : dayMatch fixed (tail ++ tail) (tail.length + 1) d 0 =
      anchorMatch fixed (tail ++ tail) d := by
    unfold dayMatch anchorMatch
    rw [if_pos rfl]
  rw [hzero]
  have hrest : (List.range' (0 + 1) ((tail.length + 1) / 2 - 1)).map
      (dayMatch fixed (tail ++ tail) (tail.length + 1) d) =
      (List.range' 1 ((tail.length + 1) / 2 - 1)).map
        (innerMatch (tail ++ tail) (tail.length + 1) d) := by
    apply List.map_congr_left
    intro i hi
    rw [List.mem_range'_1] at hi
    unfold dayMatch innerMatch
    rw [if_neg (by omega)]
  rw [hrest]
  simp only [Nat.add_sub_cancel]

/-! ### Opponent pairs of the generated matches -/

lemma assign_handicap_opponents (m : CfMatch) :
    (CfMatch.assign_handicap m).opponents = m.opponents := by
  unfold CfMatch.assign_handicap
  dsimp only
  split <;> rfl

lemma init_opponents (o : CfPlayer × CfPlayer) : (CfMatch.init o).opponents = o := by
  unfold CfMatch.init
  rw [assign_handicap_opponents]

lemma swap_opponents_opponents (m : CfMatch) :
    m.swap_opponents.opponents = (m.opponents.2, m.opponents.1) := rfl

/-- A slot match carries the base pair in one of its two side orders. -/
lemma dayMatch_opponents (fixed : CfPlayer) (rot : List CfPlayer) (n d i : ℕ) :
    (dayMatch fixed rot n d i).opponents = dayBase fixed rot n d i ∨
    (dayMatch fixed rot n d i).opponents =
      ((dayBase fixed rot n d i).2, (dayBase fixed rot n d i).1) := by
  unfold dayMatch dayBase
  by_cases hi : i = 0
  · rw [if_pos hi, if_pos hi]
    by_cases hd : d % 2 ≠ 0
    · right
      rw [if_pos hd, swap_opponents_opponents, init_opponents]
    · left
      rw [if_neg hd, init_opponents]
  · rw [if_neg hi, if_neg hi]
    by_cases hpar : i % 2 = 0
    · right
      rw [if_pos hpar, swap_opponents_opponents, init_opponents]
    · left
      rw [if_neg hpar, init_opponents]

/-- Reading the duplicated rotation buffer at any in-range position is
reading the tail modulo its length. -/
lemma rot_getD (tail : List CfPlayer) (j : ℕ) (hj : j < 2 * tail.length) :
    (tail ++ tail).getD j default = tail.getD (j % tail.length) default := by
  by_cases h : j < tail.length
  · rw [List.getD_append _ _ _ _ h, Nat.mod_eq_of_lt h]
  · have h2 : j % tail.length = j - tail.length := by
      rw [Nat.mod_eq_sub_mod (by omega), Nat.mod_eq_of_lt (by omega)]
    rw [h2, List.getD_append_right _ _ _ _ (by omega)]

lemma idxA_lt {n d i : ℕ} (hn : 2 ≤ n) : idxA n d i < n := by
  unfold idxA
  by_cases hi : i = 0
  · rw [if_pos hi]; omega
  · rw [if_neg hi]
    have := Nat.mod_lt (n - i - 1 + d) (y := n - 1) (by omega)
    omega

lemma idxB_lt {n d i : ℕ} (hn : 2 ≤ n) : idxB n d i < n := by
  unfold idxB
  by_cases hi : i = 0
  · rw [if_pos hi]
    have := Nat.mod_lt d (y := n - 1) (by omega)
    omega
  · rw [if_neg hi]
    have := Nat.mod_lt (d + i) (y := n - 1) (by omega)
    omega

/-- The base pair of an in-range slot consists of the roster entries at
the indices `idxA` and `idxB`. -/
lemma dayBase_eq (fixed : CfPlayer) (tail : List CfPlayer) {d i : ℕ}
    (hn : 2 ≤ tail.length + 1) (hd : d < tail.length) (hi : i < (tail.length + 1) / 2) :
    dayBase fixed (tail ++ tail) (tail.length + 1) d i =
      ((fixed :: tail).getD (idxA (tail.length + 1) d i) default,
       (fixed :: tail).getD (idxB (tail.length + 1) d i) default) := by
  have hlen : 1 ≤ tail.length := by omega
  unfold dayBase idxA idxB
  by_cases hi0 : i = 0
  · rw [if_pos hi0, if_pos hi0, if_pos hi0]
    rw [rot_getD tail d (by omega)]
    have hs : tail.length + 1 - 1 = tail.length := by omega
    rw [hs, List.getD_cons_zero]
    have : (fixed :: tail).getD (1 + d % tail.length) default =
        tail.getD (d % tail.length) default := by
      have h1 : 1 + d % tail.length = d % tail.length + 1 := by omega
      rw [h1, List.getD_cons_succ]
    rw [this]
  · rw [if_neg hi0, if_neg hi0, if_neg hi0]
    have hiub : i ≤ tail.length - 1 := by omega
    have hA : tail.length + 1 - i - 1 + d < 2 * tail.length := by omega
    have hB : d + i < 2 * tail.length := by omega
    rw [rot_getD tail _ hA, rot_getD tail _ hB]
    have hs : tail.length + 1 - 1 = tail.length := by omega
    rw [hs]
    have e1 : ∀ x : ℕ, (fixed :: tail).getD (1 + x) default = tail.getD x default := by
      intro x
      have h1 : 1 + x = x + 1 := by omega
      rw [h1, List.getD_cons_succ]
    rw [e1, e1]

/-- Index-level version of the unordered-pair membership test on the
opponents of a generated slot match. -/
lemma dayMatch_pair_iff (fixed : CfPlayer) (tail : List CfPlayer)
    (hnd : (fixed :: tail).Nodup) {a b d i : ℕ}
    (hn : 2 ≤ tail.length + 1) (hd : d < tail.length) (hi : i < (tail.length + 1) / 2)
    (ha : a < tail.length + 1) (hb : b < tail.length + 1) :
    ((dayMatch fixed (tail ++ tail) (tail.length + 1) d i).opponents =
        ((fixed :: tail).getD a default, (fixed :: tail).getD b default) ∨
     (dayMatch fixed (tail ++ tail) (tail.length + 1) d i).opponents =
        ((fixed :: tail).getD b default, (fixed :: tail).getD a default)) ↔
    pairHit (tail.length + 1) d i a b := by
  have hlen : (fixed :: tail).length = tail.length + 1 := by simp
  have hAlt : idxA (tail.length + 1) d i < tail.length + 1 := idxA_lt hn
  have hBlt : idxB (tail.length + 1) d i < tail.length + 1 := idxB_lt hn
  have hgetD : ∀ {x y : ℕ}, x < tail.length + 1 → y < tail.length + 1 →
      ((fixed :: tail).getD x default = (fixed :: tail).getD y default ↔ x = y) := by
    intro x y hx hy
    rw [List.getD_eq_getElem _ _ (by omega), List.getD_eq_getElem _ _ (by omega)]
    exact List.Nodup.getElem_inj_iff hnd
  have hbase := dayBase_eq fixed tail hn hd hi
  rcases dayMatch_opponents fixed (tail ++ tail) (tail.length + 1) d i with hop | hop <;>
    rw [hop, hbase] <;>
    unfold pairHit <;>
    rw [Prod.ext_iff, Prod.ext_iff] <;>
    simp only [] <;>
    rw [hgetD hAlt ha, hgetD hBlt hb, hgetD hAlt hb, hgetD hBlt ha] <;>
    tauto

/-! ### Shape and coverage of one generated schedule -/

lemma rrDays_length (ps : List CfPlayer) : (rrDays ps).length = ps.length - 1 := by
  cases ps with
  | nil => rfl
  | cons fixed tail => simp [rrDays]

lemma rrDays_day_length (ps : List CfPlayer) (hn : 2 ≤ ps.length) :
    ∀ day ∈ rrDays ps, day.length = ps.length / 2 := by
  cases ps with
  | nil => simp at hn
  | cons fixed tail =>
    intro day hday
    rw [rrDays_cons_eq fixed tail (by simpa using hn)] at hday
    rw [List.mem_map] at hday
    obtain ⟨d, hdmem, rfl⟩ := hday
    simp only [List.length_map, List.length_range, List.length_cons]

/-- Every unordered pair of distinct registered players appears in exactly
one match of the freshly generated schedule (even roster size). -/
lemma pairCount_rrDays (ps : List CfPlayer) (hn : 2 ≤ ps.length)
    (he : ps.length % 2 = 0) (hnd : ps.Nodup) {p q : CfPlayer}
    (hp : p ∈ ps) (hq : q ∈ ps) (hpq : p ≠ q) :
    pairCount (rrDays ps) p q = 1 := by
  obtain ⟨a, ha, rfl⟩ := List.mem_iff_getElem.mp hp
  obtain ⟨b, hb, rfl⟩ := List.mem_iff_getElem.mp hq
  have hab : a ≠ b := by
    intro hc
    apply hpq
    subst hc
    rfl
  cases ps with
  | nil => simp at ha
  | cons fixed tail =>
    have hlen : (fixed :: tail).length = tail.length + 1 := by simp
    rw [hlen] at ha hb hn he
    have hga : (fixed :: tail)[a] = (fixed :: tail).getD a default := by
      rw [List.getD_eq_getElem _ _ (by simpa using ha)]
    have hgb : (fixed :: tail)[b] = (fixed :: tail).getD b default := by
      rw [List.getD_eq_getElem _ _ (by simpa using hb)]
    rw [hga, hgb]
    unfold pairCount
    rw [rrDays_cons_eq fixed tail hn, List.countP_flatten, List.map_map]
    obtain ⟨d0, i0, hd0, hi0, hhit⟩ := pairHit_exists hn he ha hb hab
    have hcount : ∀ d, d < tail.length →
        ((List.range ((tail.length + 1) / 2)).map
          (dayMatch fixed (tail ++ tail) (tail.length + 1) d)).countP
          (fun mt => decide (mt.opponents =
              ((fixed :: tail).getD a default, (fixed :: tail).getD b default) ∨
            mt.opponents =
              ((fixed :: tail).getD b default, (fixed :: tail).getD a default))) =
        if d = d0 then 1 else 0 := by
      intro d hd
      rw [List.countP_map]
      by_cases hdd : d = d0
      · subst hdd
        rw [if_pos rfl]
        apply countP_range_eq_one hi0
        · rw [Function.comp_apply, decide_eq_true_iff]
          exact (dayMatch_pair_iff fixed tail hnd hn hd hi0 ha hb).mpr hhit
        · intro i hilt hqi
          rw [Function.comp_apply, decide_eq_true_iff] at hqi
          have hhit2 := (dayMatch_pair_iff fixed tail hnd hn hd hilt ha hb).mp hqi
          exact (pairHit_unique hn he (by omega) hilt (by omega) hi0 hhit2 hhit).2
      · rw [if_neg hdd]
        apply countP_range_eq_zero
        intro i hilt
        rw [Function.comp_apply]
        apply decide_eq_false
        intro hqi
        have hhit2 := (dayMatch_pair_iff fixed tail hnd hn (by omega) hilt ha hb).mp hqi
        exact hdd (pairHit_unique hn he (by omega) hilt (by omega) hi0 hhit2 hhit).1
    have hfinal : ((List.range (tail.length + 1 - 1)).map
        (fun d => ((List.range ((tail.length + 1) / 2)).map
          (dayMatch fixed (tail ++ tail) (tail.length + 1) d)).countP
          (fun mt => decide (mt.opponents =
              ((fixed :: tail).getD a default, (fixed :: tail).getD b default) ∨
            mt.opponents =
              ((fixed :: tail).getD b default, (fixed :: tail).getD a default))))).sum = 1 := by
      apply sum_map_range_eq_single d0 (by omega)
      · rw [hcount d0 (by omega), if_pos rfl]
      · intro d hdlt hne
        rw [hcount d (by omega), if_neg hne]
    exact hfinal

/-! ### Scoring engine lemmas -/

lemma sbBump_spec (sb : Scoreboard) (p : CfPlayer) (delta : ℤ) {g : ℕ} {s : ℤ}
    (h : sbLookup sb p = some (g, s)) :
    ∃ sb', sbBump sb p delta = some sb' ∧ sbLookup sb' p = some (g + 1, s + delta) ∧
      ∀ q, q ≠ p → sbLookup sb' q = sbLookup sb q := by
  induction sb with
  | nil => simp [sbLookup] at h
  | cons e rest ih =>
    obtain ⟨r, gr, sr⟩ := e
    by_cases hr : r = p
    · subst hr
      unfold sbLookup at h
      rw [if_pos rfl] at h
      have hgs : gr = g ∧ sr = s := by
        injection h with h'
        rw [Prod.ext_iff] at h'
        exact h'
      obtain ⟨hg, hs⟩ := hgs
      subst hg
      subst hs
      refine ⟨(r, gr + 1, sr + delta) :: rest, ?_, ?_, ?_⟩
      · unfold sbBump
        rw [if_pos rfl]
      · unfold sbLookup
        rw [if_pos rfl]
      · intro q hq
        unfold sbLookup
        rw [if_neg (fun hc => hq hc.symm), if_neg (fun hc => hq hc.symm)]
    · unfold sbLookup at h
      rw [if_neg hr] at h
      obtain ⟨sb', hbump, hlook, hother⟩ := ih h
      refine ⟨(r, gr, sr) :: sb', ?_, ?_, ?_⟩
      · unfold sbBump
        rw [if_neg hr, hbump]
        rfl
      · unfold sbLookup
        rw [if_neg hr]
        exact hlook
      · intro q hq
        unfold sbLookup
        by_cases hrq : r = q
        · rw [if_pos hrq, if_pos hrq]
        · rw [if_neg hrq, if_neg hrq]
          exact hother q hq

/-- Full behavior of `evaluate_match` on a decided match whose opponents
are distinct and present on the scoreboard. -/
lemma evaluate_match_decided (t : CfTournament) (m : CfMatch)
    (hr : m.result ≠ MatchResult.ONGOING) (hne : m.opponents.1 ≠ m.opponents.2)
    {g0 g1 : ℕ} {s0 s1 : ℤ}
    (h0 : sbLookup t.scoreboard m.opponents.1 = some (g0, s0))
    (h1 : sbLookup t.scoreboard m.opponents.2 = some (g1, s1)) :
    ∃ t', evaluate_match t m =
        some (t', m.opponents, match_scores t.score_win t.score_draw m.result) ∧
      t'.players = t.players ∧ t'.matchdays = t.matchdays ∧
      t'.score_win = t.score_win ∧ t'.score_draw = t.score_draw ∧
      sbLookup t'.scoreboard m.opponents.1 =
        some (g0 + 1, s0 + (match_scores t.score_win t.score_draw m.result).1) ∧
      sbLookup t'.scoreboard m.opponents.2 =
        some (g1 + 1, s1 + (match_scores t.score_win t.score_draw m.result).2) := by
  obtain ⟨sb1, hb1, hl1, ho1⟩ :=
    sbBump_spec t.scoreboard m.opponents.1
      (match_scores t.score_win t.score_draw m.result).1 h0
  have h1' : sbLookup sb1 m.opponents.2 = some (g1, s1) := by
    rw [ho1 _ (fun hc => hne hc.symm)]
    exact h1
  obtain ⟨sb2, hb2, hl2, ho2⟩ :=
    sbBump_spec sb1 m.opponents.2
      (match_scores t.score_win t.score_draw m.result).2 h1'
  refine ⟨{ t with scoreboard := sb2 }, ?_, rfl, rfl, rfl, rfl, ?_, hl2⟩
  · unfold evaluate_match
    rw [if_neg hr]
    dsimp only
    rw [hb1, Option.some_bind, hb2, Option.map_some']
  · rw [ho2 _ hne]
    exact hl1

/-- The scoreboard-level step taken by `evaluate_match` (used to factor
`evaluate_scoreboard` through the unchanging roster and score settings). -/
def evalStepSb (sw sd : ℤ) (sb : Scoreboard) (m : CfMatch) : Option Scoreboard :=
  if m.result = MatchResult.ONGOING then some sb
  else
    let scores := match_scores sw sd m.result
    (sbBump sb m.opponents.1 scores.1).bind (fun sb1 => sbBump sb1 m.opponents.2 scores.2)

lemma evaluate_match_eq_sb (t : CfTournament) (m : CfMatch) :
    evaluate_match t m = (evalStepSb t.score_win t.score_draw t.scoreboard m).map
      (fun sb => ({ t with scoreboard := sb }, m.opponents,
        if m.result = MatchResult.ONGOING then ((0 : ℤ), (0 : ℤ))
        else match_scores t.score_win t.score_draw m.result)) := by
  unfold evaluate_match evalStepSb
  by_cases hr : m.result = MatchResult.ONGOING
  · rw [if_pos hr, if_pos hr]
    simp only [Option.map_some', if_pos hr]
  · rw [if_neg hr, if_neg hr]
    dsimp only
    cases h1 : sbBump t.scoreboard m.opponents.1
        (match_scores t.score_win t.score_draw m.result).1 with
    | none => simp [hr]
    | some sb1 =>
      rw [Option.some_bind, Option.some_bind]
      cases h2 : sbBump sb1 m.opponents.2
          (match_scores t.score_win t.score_draw m.result).2 with
      | none => simp [hr]
      | some sb2 => simp [hr]

lemma foldlM_eval (ms : List CfMatch) (u : CfTournament) :
    List.foldlM (fun acc mt => (evaluate_match acc mt).map (fun r => r.1)) u ms =
      (List.foldlM (evalStepSb u.score_win u.score_draw) u.scoreboard ms).map
        (fun sb => { u with scoreboard := sb }) := by
  induction ms generalizing u with
  | nil => rfl
  | cons mt ms ih =>
    rw [List.foldlM_cons, List.foldlM_cons, evaluate_match_eq_sb]
    cases h1 : evalStepSb u.score_win u.score_draw u.scoreboard mt with
    | none => simp [h1]
    | some sb1 =>
      simp only [Option.map_some', Option.bind_eq_bind, Option.some_bind]
      exact ih { u with scoreboard := sb1 }

/-- The function `evaluate_scoreboard` factored into a pure scoreboard computation from
the roster, the schedule and the score settings. -/
lemma evaluate_scoreboard_eq (t : CfTournament) :
    evaluate_scoreboard t =
      (List.foldlM (evalStepSb t.score_win t.score_draw)
        (t.players.map (fun p => (p, 0, 0))) t.matchdays.flatten).map
        (fun sb => { t with scoreboard := sb }) := by
  unfold evaluate_scoreboard
  rw [foldlM_eval]
  rfl

lemma sbLookup_map_zero (ps : List CfPlayer) (p : CfPlayer) (hp : p ∈ ps) :
    sbLookup (ps.map (fun q => (q, 0, 0))) p = some (0, 0) := by
  induction ps with
  | nil => simp at hp
  | cons r rest ih =>
    rw [List.map_cons]
    unfold sbLookup
    by_cases hr : r = p
    · rw [if_pos hr]
    · rw [if_neg hr]
      rcases List.mem_cons.mp hp with h | h
      · exact absurd h.symm hr
      · exact ih h

/-! ### The list surgery performed by the pairing loop

The outer loop appends an empty day list and then writes through the
index `matchday` into the whole matchday list, so its effect is exact
list surgery: `set`/`getD` at an index that equals the length of the
pre-existing prefix only when the matchday list started empty. -/

lemma set_last {α : Type*} (M : List α) (x v : α) :
    (M ++ [x]).set M.length v = M ++ [v] := by
  rw [List.set_append_right _ _ (le_refl _)]
  simp

lemma getD_last {α : Type*} (M : List α) (x d : α) :
    (M ++ [x]).getD M.length d = x := by
  rw [List.getD_append_right _ _ _ _ (le_refl _)]
  simp

/-- The unordered-pair membership test counted by `pairCount`. -/
def pairPred (p q : CfPlayer) (mt : CfMatch) : Bool :=
  decide (mt.opponents = (p, q) ∨ mt.opponents = (q, p))

lemma pairCount_eq_countP (D : List (List CfMatch)) (p q : CfPlayer) :
    pairCount D p q = D.flatten.countP (pairPred p q) := rfl

lemma pairPred_swap (p q : CfPlayer) (mt : CfMatch) :
    pairPred p q mt.swap_opponents = pairPred p q mt := by
  unfold pairPred CfMatch.swap_opponents
  rw [decide_eq_decide]
  simp only [Prod.ext_iff]
  tauto

lemma countP_map_congr {α β : Type*} (pr : β → Bool) (f g : α → β) (l : List α)
    (h : ∀ x ∈ l, pr (f x) = pr (g x)) :
    (l.map f).countP pr = (l.map g).countP pr := by
  rw [List.countP_map, List.countP_map]
  apply List.countP_congr
  intro x hx
  rw [Function.comp_apply, Function.comp_apply, h x hx]

lemma countP_set_of_pred_eq {α : Type*} (pr : α → Bool) (v : α) :
    ∀ (l : List α) (i : ℕ), (∀ hi : i < l.length, pr v = pr (l.get ⟨i, hi⟩)) →
      (l.set i v).countP pr = l.countP pr := by
  intro l
  induction l with
  | nil => intro i _; rfl
  | cons a rest ih =>
    intro i h
    cases i with
    | zero =>
      have h0 : pr v = pr a := h (by simp)
      rw [List.set_cons_zero, List.countP_cons, List.countP_cons, h0]
    | succ i =>
      rw [List.set_cons_succ, List.countP_cons, List.countP_cons,
        ih i (fun hi => h (Nat.succ_lt_succ hi))]

lemma countP_flatten_set_rel {α : Type*} (pr : α → Bool) :
    ∀ (M : List (List α)) (d : ℕ) (v : List α), d < M.length →
      (M.set d v).flatten.countP pr + (M.getD d []).countP pr =
        M.flatten.countP pr + v.countP pr := by
  intro M
  induction M with
  | nil =>
    intro d v hd
    simp at hd
  | cons day rest ih =>
    intro d v hd
    cases d with
    | zero =>
      rw [List.set_cons_zero, List.flatten_cons, List.flatten_cons,
        List.countP_append, List.countP_append, List.getD_cons_zero]
      omega
    | succ d =>
      rw [List.set_cons_succ, List.flatten_cons, List.flatten_cons,
        List.countP_append, List.countP_append, List.getD_cons_succ]
      have hrec := ih d v (by simp only [List.length_cons] at hd; omega)
      omega

lemma length_append_to_day (M : List (List CfMatch)) (d : ℕ) (mt : CfMatch) :
    (append_to_day M d mt).length = M.length := by
  unfold append_to_day
  rw [List.length_set]

lemma length_swap_in_day (M : List (List CfMatch)) (d i : ℕ) :
    (swap_in_day M d i).length = M.length := by
  unfold swap_in_day
  rw [List.length_set]

lemma pairCount_append_empty (M : List (List CfMatch)) (p q : CfPlayer) :
    pairCount (M ++ [[]]) p q = pairCount M p q := by
  rw [pairCount_eq_countP, pairCount_eq_countP, List.flatten_append]
  simp

lemma pairCount_append_to_day (M : List (List CfMatch)) (d : ℕ) (mt : CfMatch)
    (p q : CfPlayer) (hd : d < M.length) :
    pairCount (append_to_day M d mt) p q =
      pairCount M p q + (if pairPred p q mt then 1 else 0) := by
  have hrel := countP_flatten_set_rel (pairPred p q) M d (M.getD d [] ++ [mt]) hd
  rw [List.countP_append] at hrel
  have hmt : ([mt].countP (pairPred p q)) = if pairPred p q mt then 1 else 0 := by
    rw [List.countP_cons]
    simp
  rw [pairCount_eq_countP, pairCount_eq_countP]
  unfold append_to_day
  omega

lemma pairCount_swap_in_day (M : List (List CfMatch)) (d i : ℕ) (p q : CfPlayer) :
    pairCount (swap_in_day M d i) p q = pairCount M p q := by
  by_cases hd : d < M.length
  · have hday : ((M.getD d []).set i
        ((M.getD d []).getD i default).swap_opponents).countP (pairPred p q) =
        (M.getD d []).countP (pairPred p q) := by
      apply countP_set_of_pred_eq
      intro hi
      rw [pairPred_swap, List.getD_eq_getElem _ _ hi]
      rfl
    have hrel := countP_flatten_set_rel (pairPred p q) M d
      ((M.getD d []).set i ((M.getD d []).getD i default).swap_opponents) hd
    rw [pairCount_eq_countP, pairCount_eq_countP]
    unfold swap_in_day
    omega
  · unfold swap_in_day
    rw [List.set_eq_of_length_le (by omega)]

lemma inner_step_length (rot : List CfPlayer) (n d : ℕ)
    (Mi : List (List CfMatch)) (i : ℕ) :
    (inner_step rot n d Mi i).length = Mi.length := by
  unfold inner_step
  dsimp only
  by_cases hi : i % 2 = 0
  · rw [if_pos hi, length_swap_in_day, length_append_to_day]
  · rw [if_neg hi, length_append_to_day]

lemma inner_step_pairCount (rot : List CfPlayer) (n d : ℕ)
    (Mi : List (List CfMatch)) (i : ℕ) (p q : CfPlayer) (hd : d < Mi.length) :
    pairCount (inner_step rot n d Mi i) p q =
      pairCount Mi p q + (if pairPred p q (CfMatch.init
        (rot.getD (n - i - 1 + d) default, rot.getD (d + i) default)) then 1 else 0) := by
  unfold inner_step
  dsimp only
  by_cases hi : i % 2 = 0
  · rw [if_pos hi, pairCount_swap_in_day, pairCount_append_to_day _ _ _ _ _ hd]
  · rw [if_neg hi, pairCount_append_to_day _ _ _ _ _ hd]

lemma foldl_inner_length (rot : List CfPlayer) (n d : ℕ) :
    ∀ (lst : List ℕ) (Mi : List (List CfMatch)),
      (lst.foldl (inner_step rot n d) Mi).length = Mi.length := by
  intro lst
  induction lst with
  | nil => intro Mi; rfl
  | cons i lst ih =>
    intro Mi
    rw [List.foldl_cons, ih, inner_step_length]

lemma foldl_inner_pairCount (rot : List CfPlayer) (n d : ℕ) (p q : CfPlayer) :
    ∀ (lst : List ℕ) (Mi : List (List CfMatch)), d < Mi.length →
      pairCount (lst.foldl (inner_step rot n d) Mi) p q =
        pairCount Mi p q + (lst.map (fun i => CfMatch.init
          (rot.getD (n - i - 1 + d) default,
           rot.getD (d + i) default))).countP (pairPred p q) := by
  intro lst
  induction lst with
  | nil =>
    intro Mi _
    simp
  | cons i lst ih =>
    intro Mi hd
    rw [List.foldl_cons, ih _ (by rw [inner_step_length]; exact hd),
      inner_step_pairCount rot n d Mi i p q hd, List.map_cons, List.countP_cons]
    omega

lemma round_robin_step_length (fixed : CfPlayer) (rot : List CfPlayer) (n : ℕ)
    (M : List (List CfMatch)) (d : ℕ) :
    (round_robin_step fixed rot n M d).length = M.length + 1 := by
  unfold round_robin_step
  dsimp only
  rw [foldl_inner_length]
  by_cases hpar : d % 2 ≠ 0
  · rw [if_pos hpar, length_swap_in_day, length_append_to_day]
    simp
  · rw [if_neg hpar, length_append_to_day]
    simp

/-- The matches one outer-loop iteration creates (before any in-day side
swap; swaps never change the unordered opponent pair). -/
def genMatches (fixed : CfPlayer) (rot : List CfPlayer) (n d : ℕ) : List CfMatch :=
  CfMatch.init (fixed, rot.getD d default) ::
    (List.range' 1 (n / 2 - 1)).map (fun i =>
      CfMatch.init (rot.getD (n - i - 1 + d) default, rot.getD (d + i) default))

lemma round_robin_step_pairCount (fixed : CfPlayer) (rot : List CfPlayer) (n : ℕ)
    (M : List (List CfMatch)) (d : ℕ) (p q : CfPlayer) (hd : d ≤ M.length) :
    pairCount (round_robin_step fixed rot n M d) p q =
      pairCount M p q + (genMatches fixed rot n d).countP (pairPred p q) := by
  have hd1 : d < (M ++ [[]]).length := by
    rw [List.length_append]
    simp only [List.length_cons, List.length_nil]
    omega
  have hd2 : d < (append_to_day (M ++ [[]]) d
      (CfMatch.init (fixed, rot.getD d default))).length := by
    rw [length_append_to_day]
    exact hd1
  unfold round_robin_step genMatches
  dsimp only
  rw [List.countP_cons]
  by_cases hpar : d % 2 ≠ 0
  · rw [if_pos hpar,
      foldl_inner_pairCount rot n d p q _ _ (by rw [length_swap_in_day]; exact hd2),
      pairCount_swap_in_day, pairCount_append_to_day _ _ _ _ _ hd1, pairCount_append_empty]
    omega
  · rw [if_neg hpar,
      foldl_inner_pairCount rot n d p q _ _ hd2,
      pairCount_append_to_day _ _ _ _ _ hd1, pairCount_append_empty]
    omega

lemma fold_steps_length (fixed : CfPlayer) (rot : List CfPlayer) (n : ℕ) :
    ∀ (j : ℕ) (M : List (List CfMatch)),
      ((List.range j).foldl (round_robin_step fixed rot n) M).length = M.length + j := by
  intro j
  induction j with
  | zero => intro M; rfl
  | succ j ih =>
    intro M
    rw [List.range_succ, List.foldl_append]
    simp only [List.foldl_cons, List.foldl_nil]
    rw [round_robin_step_length, ih]
    omega

lemma fold_steps_pairCount (fixed : CfPlayer) (rot : List CfPlayer) (n : ℕ) (p q : CfPlayer) :
    ∀ (j : ℕ) (M : List (List CfMatch)),
      pairCount ((List.range j).foldl (round_robin_step fixed rot n) M) p q =
        pairCount M p q + ((List.range j).map (fun d =>
          (genMatches fixed rot n d).countP (pairPred p q))).sum := by
  intro j
  induction j with
  | zero =>
    intro M
    simp
  | succ j ih =>
    intro M
    rw [List.range_succ, List.foldl_append, List.map_append, List.sum_append]
    simp only [List.foldl_cons, List.foldl_nil, List.map_cons, List.map_nil,
      List.sum_cons, List.sum_nil]
    rw [round_robin_step_pairCount fixed rot n _ j p q
      (by rw [fold_steps_length]; omega), ih M]
    omega

lemma buildDay_countP (fixed : CfPlayer) (rot : List CfPlayer) (n d : ℕ) (p q : CfPlayer) :
    (buildDay fixed rot n d).countP (pairPred p q) =
      (genMatches fixed rot n d).countP (pairPred p q) := by
  unfold buildDay genMatches anchorMatch
  dsimp only
  rw [List.countP_cons, List.countP_cons]
  have h1 : pairPred p q (if d % 2 ≠ 0
      then (CfMatch.init (fixed, rot.getD d default)).swap_opponents
      else CfMatch.init (fixed, rot.getD d default)) =
      pairPred p q (CfMatch.init (fixed, rot.getD d default)) := by
    by_cases hpar : d % 2 ≠ 0
    · rw [if_pos hpar, pairPred_swap]
    · rw [if_neg hpar]
  have h2 : ((List.range' 1 (n / 2 - 1)).map (innerMatch rot n d)).countP (pairPred p q) =
      ((List.range' 1 (n / 2 - 1)).map (fun i => CfMatch.init
        (rot.getD (n - i - 1 + d) default, rot.getD (d + i) default))).countP (pairPred p q) := by
    apply countP_map_congr
    intro i _
    unfold innerMatch
    dsimp only
    by_cases hi : i % 2 = 0
    · rw [if_pos hi, pairPred_swap]
    · rw [if_neg hi]
  rw [h1, h2]

lemma sum_genMatches_eq (fixed : CfPlayer) (tail : List CfPlayer) (p q : CfPlayer) :
    ((List.range ((fixed :: tail).length - 1)).map (fun d =>
      (genMatches fixed (tail ++ tail) (fixed :: tail).length d).countP (pairPred p q))).sum =
      pairCount (rrDays (fixed :: tail)) p q := by
  rw [pairCount_eq_countP]
  unfold rrDays
  rw [List.countP_flatten, List.map_map]
  congr 1
  apply List.map_congr_left
  intro d _
  rw [Function.comp_apply, buildDay_countP]

/-! ### The fresh-schedule (empty matchday list) regime -/

lemma inner_fresh (rot : List CfPlayer) (n : ℕ) (M : List (List CfMatch)) :
    ∀ (k : ℕ) (day : List CfMatch),
      (List.range' day.length k).foldl (inner_step rot n M.length) (M ++ [day]) =
        M ++ [day ++ (List.range' day.length k).map (innerMatch rot n M.length)] := by
  intro k
  induction k with
  | zero =>
    intro day
    simp
  | succ k ih =>
    intro day
    rw [List.range'_succ, List.foldl_cons]
    have hstep : inner_step rot n M.length (M ++ [day]) day.length =
        M ++ [day ++ [innerMatch rot n M.length day.length]] := by
      unfold inner_step innerMatch append_to_day swap_in_day
      dsimp only
      rw [getD_last, set_last]
      by_cases hpar : day.length % 2 = 0
      · rw [if_pos hpar, if_pos hpar, getD_last, getD_last, set_last, set_last]
      · rw [if_neg hpar, if_neg hpar]
    rw [hstep]
    rw [List.map_cons]
    have ihx := ih (day ++ [innerMatch rot n M.length day.length])
    simp only [List.length_append, List.length_cons, List.length_nil, Nat.zero_add,
      List.append_assoc, List.singleton_append] at ihx
    exact ihx

lemma round_robin_step_fresh (fixed : CfPlayer) (rot : List CfPlayer) (n : ℕ)
    (M : List (List CfMatch)) :
    round_robin_step fixed rot n M M.length = M ++ [buildDay fixed rot n M.length] := by
  unfold round_robin_step buildDay
  dsimp only
  have h1 : append_to_day (M ++ [[]]) M.length
      (CfMatch.init (fixed, rot.getD M.length default)) =
      M ++ [[CfMatch.init (fixed, rot.getD M.length default)]] := by
    unfold append_to_day
    rw [getD_last, set_last]
    simp
  rw [h1]
  have h2 : (if M.length % 2 ≠ 0
      then swap_in_day (M ++ [[CfMatch.init (fixed, rot.getD M.length default)]]) M.length 0
      else M ++ [[CfMatch.init (fixed, rot.getD M.length default)]]) =
      M ++ [[anchorMatch fixed rot M.length]] := by
    unfold anchorMatch swap_in_day
    dsimp only
    by_cases hpar : M.length % 2 ≠ 0
    · rw [if_pos hpar, if_pos hpar, getD_last, set_last]
      rfl
    · rw [if_neg hpar, if_neg hpar]
  rw [h2]
  have h3 := inner_fresh rot n M (n / 2 - 1) [anchorMatch fixed rot M.length]
  simp only [List.length_cons, List.length_nil, Nat.zero_add, List.singleton_append] at h3
  rw [h3]

lemma fold_steps_fresh (fixed : CfPlayer) (rot : List CfPlayer) (n : ℕ) :
    ∀ (j : ℕ), ((List.range j).foldl (round_robin_step fixed rot n) []) =
      (List.range j).map (buildDay fixed rot n) := by
  intro j
  induction j with
  | zero => rfl
  | succ j ih =>
    rw [List.range_succ, List.foldl_append, List.map_append]
    simp only [List.foldl_cons, List.foldl_nil, List.map_cons, List.map_nil]
    rw [ih]
    have hlen : ((List.range j).map (buildDay fixed rot n)).length = j := by simp
    have hstep := round_robin_step_fresh fixed rot n
      ((List.range j).map (buildDay fixed rot n))
    rw [hlen] at hstep
    rw [hstep]

/-! ### One `round_robin_pairing` call and its iteration -/

/-- On a nonempty roster with an initially empty matchday list,
`round_robin_pairing` produces exactly the `rrDays` schedule and resets
the scoreboard (in this regime every day index the loop writes through
addresses the day it just appended). -/
lemma round_robin_pairing_eq (t : CfTournament) (fixed : CfPlayer) (tail : List CfPlayer)
    (h : t.players = fixed :: tail) (hmd : t.matchdays = []) :
    round_robin_pairing t =
      some (reset_scoreboard { t with matchdays := rrDays (fixed :: tail) }) := by
  simp only [round_robin_pairing, h, hmd]
  rw [fold_steps_fresh]
  rfl

/-- One `round_robin_pairing` call on an arbitrary matchday list: the
roster and score settings are unchanged, the scoreboard is reset, the
matchday list grows by N - 1 entries, and the matches the call creates
contribute to each unordered pair exactly as often as the fresh
schedule `rrDays` does (regardless of which day lists they land in). -/
lemma round_robin_general (t : CfTournament) (fixed : CfPlayer) (tail : List CfPlayer)
    (h : t.players = fixed :: tail) :
    ∃ t2, round_robin_pairing t = some t2 ∧
      t2.players = t.players ∧ t2.score_win = t.score_win ∧ t2.score_draw = t.score_draw ∧
      t2.scoreboard = t.players.map (fun p => (p, 0, 0)) ∧
      t2.matchdays.length = t.matchdays.length + (t.players.length - 1) ∧
      (∀ p q, pairCount t2.matchdays p q =
        pairCount t.matchdays p q + pairCount (rrDays t.players) p q) := by
  have hrr : round_robin_pairing t = some (reset_scoreboard { t with
      matchdays := (List.range ((fixed :: tail).length - 1)).foldl
        (round_robin_step fixed (tail ++ tail) (fixed :: tail).length) t.matchdays }) := by
    simp only [round_robin_pairing, h]
  refine ⟨_, hrr, ?_, ?_, ?_, ?_, ?_, ?_⟩
  · simp [reset_scoreboard]
  · simp [reset_scoreboard]
  · simp [reset_scoreboard]
  · simp [reset_scoreboard]
  · simp only [reset_scoreboard]
    rw [fold_steps_length, h]
  · intro p q
    simp only [reset_scoreboard]
    rw [fold_steps_pairCount, sum_genMatches_eq, h]

lemma round_robin_spec (t : CfTournament) (hne : t.players ≠ []) (hmd : t.matchdays = []) :
    ∃ t2, round_robin_pairing t = some t2 ∧
      t2.players = t.players ∧ t2.score_win = t.score_win ∧ t2.score_draw = t.score_draw ∧
      t2.matchdays = rrDays t.players ∧
      t2.scoreboard = t.players.map (fun p => (p, 0, 0)) := by
  cases hp : t.players with
  | nil => exact absurd hp hne
  | cons fixed tail =>
    refine ⟨_, round_robin_pairing_eq t fixed tail hp hmd, ?_, ?_, ?_, ?_, ?_⟩ <;>
      simp [reset_scoreboard, hp]

lemma pairCount_append (D1 D2 : List (List CfMatch)) (p q : CfPlayer) :
    pairCount (D1 ++ D2) p q = pairCount D1 p q + pairCount D2 p q := by
  unfold pairCount
  rw [List.flatten_append, List.countP_append]

lemma callRoundRobin_spec (k : ℕ) (t : CfTournament) (hn : 2 ≤ t.players.length)
    (he : t.players.length % 2 = 0) (hnd : t.players.Nodup) :
    ∃ t2, callRoundRobin k t = some t2 ∧ t2.players = t.players ∧
      t2.matchdays.length = t.matchdays.length + k * (t.players.length - 1) ∧
      (∀ p q, p ∈ t.players → q ∈ t.players → p ≠ q →
        pairCount t2.matchdays p q = pairCount t.matchdays p q + k) ∧
      (k = 0 → t2 = t) ∧
      (1 ≤ k → t2.scoreboard = t.players.map (fun p => (p, 0, 0))) := by
  induction k generalizing t with
  | zero =>
    exact ⟨t, rfl, rfl, by omega, fun p q _ _ _ => by omega, fun _ => rfl, fun h => by omega⟩
  | succ k ih =>
    obtain ⟨fixed, tail, hp⟩ := List.exists_cons_of_ne_nil
      (show t.players ≠ [] by intro hc; rw [hc] at hn; simp at hn)
    obtain ⟨t1, hrr, hpl, hsw, hsd, hsb, hlen, hcount⟩ := round_robin_general t fixed tail hp
    obtain ⟨t2, hcall, hpl2, hlen2, hcount2, hzero2, hsb2⟩ := ih t1
      (by rw [hpl]; exact hn) (by rw [hpl]; exact he) (by rw [hpl]; exact hnd)
    refine ⟨t2, ?_, by rw [hpl2, hpl], ?_, ?_, by omega, ?_⟩
    · unfold callRoundRobin
      rw [hrr]
      exact hcall
    · rw [hlen2, hlen, hpl]
      ring
    · intro p q hpmem hqmem hpq
      rw [hcount2 p q (by rw [hpl]; exact hpmem) (by rw [hpl]; exact hqmem) hpq,
        hcount p q, pairCount_rrDays t.players hn he hnd hpmem hqmem hpq]
      omega
    · intro _
      rcases Nat.eq_zero_or_pos k with hk | hk
      · rw [hzero2 hk, hsb]
      · rw [hsb2 (by omega), hpl]

/-! ### Roster registration lemmas -/

/-- The players contained in one list argument, in order. -/
def listPlayers : List PyObj → List CfPlayer
  | [] => []
  | PyObj.player p :: rest => p :: listPlayers rest
  | PyObj.nonPlayer :: rest => listPlayers rest

/-- A list argument is well-typed when all its elements are players. -/
def listWellTyped : List PyObj → Bool
  | [] => true
  | PyObj.player _ :: rest => listWellTyped rest
  | PyObj.nonPlayer :: _ => false

/-- All players supplied across the variadic arguments, in order. -/
def argsPlayers : List AddArg → List CfPlayer
  | [] => []
  | AddArg.obj (PyObj.player p) :: rest => p :: argsPlayers rest
  | AddArg.obj PyObj.nonPlayer :: rest => argsPlayers rest
  | AddArg.list l :: rest => listPlayers l ++ argsPlayers rest

/-- The whole argument sequence is well-typed: every argument is a player
or a list of players. -/
def argsWellTyped : List AddArg → Bool
  | [] => true
  | AddArg.obj (PyObj.player _) :: rest => argsWellTyped rest
  | AddArg.obj PyObj.nonPlayer :: _ => false
  | AddArg.list l :: rest => listWellTyped l && argsWellTyped rest

lemma addPlayersList_ok (roster : List CfPlayer) (l : List PyObj)
    (h : listWellTyped l = true) :
    addPlayersList roster l = (roster ++ listPlayers l, false) := by
  induction l generalizing roster with
  | nil => simp [addPlayersList, listPlayers]
  | cons o rest ih =>
    cases o with
    | player p =>
      unfold addPlayersList listPlayers
      rw [ih (roster ++ [p]) h]
      simp
    | nonPlayer => simp [listWellTyped] at h

lemma add_players_ok (roster : List CfPlayer) (args : List AddArg)
    (h : argsWellTyped args = true) :
    add_players roster args = (roster ++ argsPlayers args, false) := by
  induction args generalizing roster with
  | nil => simp [add_players, argsPlayers]
  | cons a rest ih =>
    cases a with
    | obj o =>
      cases o with
      | player p =>
        unfold add_players argsPlayers
        rw [ih (roster ++ [p]) h]
        simp
      | nonPlayer => simp [argsWellTyped] at h
    | list l =>
      unfold argsWellTyped at h
      rw [Bool.and_eq_true] at h
      simp only [add_players, argsPlayers]
      rw [addPlayersList_ok roster l h.1]
      dsimp only
      rw [ih (roster ++ listPlayers l) h.2]
      simp

lemma addPlayersList_roster (roster : List CfPlayer) (l : List PyObj) :
    ∃ pre rest, listPlayers l = pre ++ rest ∧
      (addPlayersList roster l).1 = roster ++ pre := by
  induction l generalizing roster with
  | nil => exact ⟨[], [], rfl, by simp [addPlayersList]⟩
  | cons o rest ih =>
    cases o with
    | player p =>
      obtain ⟨pre, rst, hsplit, hro⟩ := ih (roster ++ [p])
      refine ⟨p :: pre, rst, ?_, ?_⟩
      · unfold listPlayers
        rw [hsplit]
        rfl
      · unfold addPlayersList
        rw [hro]
        simp
    | nonPlayer =>
      exact ⟨[], listPlayers rest, by simp [listPlayers], by simp [addPlayersList]⟩

lemma addPlayersList_no_error (roster : List CfPlayer) (l : List PyObj)
    (h : (addPlayersList roster l).2 = false) :
    (addPlayersList roster l).1 = roster ++ listPlayers l := by
  induction l generalizing roster with
  | nil => simp [addPlayersList, listPlayers]
  | cons o rest ih =>
    cases o with
    | player p =>
      unfold addPlayersList listPlayers
      unfold addPlayersList at h
      rw [ih (roster ++ [p]) h]
      simp
    | nonPlayer => simp [addPlayersList] at h

lemma add_players_roster (roster : List CfPlayer) (args : List AddArg) :
    ∃ pre rest, argsPlayers args = pre ++ rest ∧
      (add_players roster args).1 = roster ++ pre := by
  induction args generalizing roster with
  | nil => exact ⟨[], [], rfl, by simp [add_players]⟩
  | cons a rest ih =>
    cases a with
    | obj o =>
      cases o with
      | player p =>
        obtain ⟨pre, rst, hsplit, hro⟩ := ih (roster ++ [p])
        refine ⟨p :: pre, rst, ?_, ?_⟩
        · unfold argsPlayers
          rw [hsplit]
          rfl
        · unfold add_players
          rw [hro]
          simp
      | nonPlayer =>
        exact ⟨[], argsPlayers rest, by simp [argsPlayers], by simp [add_players]⟩
    | list l =>
      cases herr : addPlayersList roster l with
      | mk roster2 flag =>
        cases flag with
        | true =>
          obtain ⟨preL, rstL, hsplitL, hroL⟩ := addPlayersList_roster roster l
          refine ⟨preL, rstL ++ argsPlayers rest, ?_, ?_⟩
          · simp only [argsPlayers]
            rw [hsplitL, List.append_assoc]
          · simp only [add_players]
            rw [herr]
            rw [herr] at hroL
            exact hroL
        | false =>
          have hfull : roster2 = roster ++ listPlayers l := by
            have := addPlayersList_no_error roster l (by rw [herr])
            rw [herr] at this
            exact this
          obtain ⟨pre, rst, hsplit, hro⟩ := ih (roster ++ listPlayers l)
          refine ⟨listPlayers l ++ pre, rst, ?_, ?_⟩
          · simp only [argsPlayers]
            rw [hsplit, List.append_assoc]
          · simp only [add_players]
            rw [herr]
            dsimp only
            rw [hfull, hro, List.append_assoc]

/-! ### Demonstration fixtures used by witnesses and counterexamples -/

def dA : CfPlayer := { first_name := "Ada", last_name := "Alpha", rating := 1400 }

def dB : CfPlayer := { first_name := "Ben", last_name := "Beta", rating := 1600 }

def dC : CfPlayer := { first_name := "Cia", last_name := "Gamma", rating := 1200 }

def dD : CfPlayer := { first_name := "Dan", last_name := "Delta", rating := 1800 }

/-- A fresh tournament over the given roster (defaults of `__init__`). -/
def mkT (ps : List CfPlayer) : CfTournament :=
  { players := ps, matchdays := [], score_win := 3, score_draw := 1, scoreboard := [] }

def demoT0 : CfTournament := mkT []

def demoT1 : CfTournament := mkT [dA]

def demoT2 : CfTournament := mkT [dA, dB]

def demoT3 : CfTournament := mkT [dA, dB, dC]

def demoT4 : CfTournament := mkT [dA, dB, dC, dD]

def R4 : CfTournament := (round_robin_pairing demoT4).getD default

def R3 : CfTournament := (round_robin_pairing demoT3).getD default

def K2 : CfTournament := (callRoundRobin 2 demoT2).getD default

/-- A decided match used by the scoring witnesses. -/
def m5 : CfMatch :=
  { opponents := (dA, dB), result := MatchResult.WHITE_WINS, time_limits := (60, 60) }

def T5 : CfTournament :=
  { players := [dA, dB], matchdays := [[m5]], score_win := 3, score_draw := 1,
    scoreboard := [(dA, 0, 0), (dB, 0, 0)] }

def E5 : CfTournament × (CfPlayer × CfPlayer) × (ℤ × ℤ) := (evaluate_match T5 m5).getD default

def E6 : CfTournament × (CfPlayer × CfPlayer) × (ℤ × ℤ) := (evaluate_match E5.1 m5).getD default

def T7 : CfTournament := (evaluate_scoreboard T5).getD default

/-! ### The claims -/

/-- Claim C1: for every tournament with an even number N >= 2 of distinct
registered players and a fresh matchday list, `round_robin_pairing`
produces exactly N - 1 matchdays, each containing exactly N / 2 matches,
and every unordered pair of the N registered players appears in exactly
one match across the whole schedule. -/
theorem claim_C1_round_robin_even_coverage (t t2 : CfTournament)
    (hn : 2 ≤ t.players.length) (he : t.players.length % 2 = 0)
    (hnd : t.players.Nodup) (hmd : t.matchdays = [])
    (h : round_robin_pairing t = some t2) :
    t2.matchdays.length = t.players.length - 1 ∧
    (∀ day ∈ t2.matchdays, day.length = t.players.length / 2) ∧
    (∀ p q, p ∈ t.players → q ∈ t.players → p ≠ q →
      pairCount t2.matchdays p q = 1) := by
  obtain ⟨t3, hrr, hpl, hsw, hsd, hmd2, hsb⟩ :=
    round_robin_spec t (by intro hc; rw [hc] at hn; simp at hn) hmd
  rw [h] at hrr
  injection hrr with ht2
  subst ht2
  refine ⟨?_, ?_, ?_⟩
  · rw [hmd2, rrDays_length]
  · intro day hday
    rw [hmd2] at hday
    exact rrDays_day_length t.players hn day hday
  · intro p q hp hq hpq
    rw [hmd2]
    exact pairCount_rrDays t.players hn he hnd hp hq hpq

/-- Witness for C1 at the concrete four-player tournament `demoT4`. -/
theorem claim_C1_round_robin_even_coverage_witness :
    round_robin_pairing demoT4 = some R4 ∧ R4.matchdays.length = 3 ∧
      pairCount R4.matchdays dA dC = 1 := by
  have hR : round_robin_pairing demoT4 = some R4 := by rfl
  have h := claim_C1_round_robin_even_coverage demoT4 R4
    (by decide) (by decide) (by decide) rfl hR
  exact ⟨hR, h.1.trans (by decide), h.2.2 dA dC (by decide) (by decide) (by decide)⟩

/-- Counterexample to C3 as stated: with exactly one registered player
(fewer than 2), `round_robin_pairing` does not fail; it silently succeeds
and produces an empty schedule. -/
theorem claim_C3_counterexample :
    round_robin_pairing demoT1 =
      some { players := [dA], matchdays := [], score_win := 3, score_draw := 1,
             scoreboard := [(dA, 0, 0)] } := by
  decide

/-- Claim C3 (amended): with zero registered players schedule generation
fails explicitly (the `players[0]` access raises), but with exactly one
registered player it silently succeeds, producing no matchdays and only
resetting the scoreboard; the claimed explicit failure holds only for
N = 0. -/
theorem claim_C3_small_roster (t : CfTournament) :
    (t.players = [] → round_robin_pairing t = none) ∧
    (t.players.length = 1 → round_robin_pairing t = some (reset_scoreboard t)) := by
  constructor
  · intro h
    simp [round_robin_pairing, h]
  · intro h
    obtain ⟨fixed, tail, hp⟩ := List.exists_cons_of_ne_nil
      (show t.players ≠ [] by intro hc; rw [hc] at h; simp at h)
    have htail : tail = [] := by
      rw [hp] at h
      simpa using h
    subst htail
    simp only [round_robin_pairing, hp, List.length_cons, List.length_nil]
    norm_num
    rw [← hp]

/-- Witness for C3 (amended) at the empty and one-player tournaments. -/
theorem claim_C3_small_roster_witness :
    round_robin_pairing demoT0 = none ∧
      round_robin_pairing demoT1 = some (reset_scoreboard demoT1) :=
  ⟨(claim_C3_small_roster demoT0).1 rfl, (claim_C3_small_roster demoT1).2 (by decide)⟩

/-- Counterexample to C4 as stated: registering a list whose second
element is not a player raises the type error but leaves the first
element on the roster, so the call is not atomic. -/
theorem claim_C4_counterexample :
    add_players [] [AddArg.list [PyObj.player dA, PyObj.nonPlayer]] = ([dA], true) ∧
      ([dA] : List CfPlayer) ≠ [] := by
  constructor
  · decide
  · decide

/-- Claim C4 (amended): a call to `add_players` with well-typed arguments
appends all supplied players to the roster in order and raises no error;
on a type error the players processed before the offending element remain
appended, so the roster always extends by a prefix of the supplied
players (full atomicity fails). -/
theorem claim_C4_add_players (roster : List CfPlayer) (args : List AddArg) :
    (argsWellTyped args = true →
      add_players roster args = (roster ++ argsPlayers args, false)) ∧
    (∃ pre rest, argsPlayers args = pre ++ rest ∧
      (add_players roster args).1 = roster ++ pre) :=
  ⟨fun h => add_players_ok roster args h, add_players_roster roster args⟩

/-- Witness for C4 (amended): a well-typed registration of one player and
a one-player list appends both in order. -/
theorem claim_C4_add_players_witness :
    add_players [] [AddArg.obj (PyObj.player dA), AddArg.list [PyObj.player dB]] =
      ([dA, dB], false) := by
  have h := (claim_C4_add_players []
    [AddArg.obj (PyObj.player dA), AddArg.list [PyObj.player dB]]).1 (by decide)
  exact h.trans (by decide)

/-- Claim C5: `evaluate_match` returns the opponent pair with scores
determined solely by the result: ongoing gives (0, 0) and leaves the
tournament (hence the scoreboard) unchanged, first-mover win gives
(score_win, 0), second-mover win gives (0, score_win), draw gives
(score_draw, score_draw); for a decided result each opponent has games
incremented by 1 and score incremented by the awarded amount. -/
theorem claim_C5_evaluate_match (t : CfTournament) (m : CfMatch)
    (hne : m.opponents.1 ≠ m.opponents.2) {g0 g1 : ℕ} {s0 s1 : ℤ}
    (h0 : sbLookup t.scoreboard m.opponents.1 = some (g0, s0))
    (h1 : sbLookup t.scoreboard m.opponents.2 = some (g1, s1)) :
    ∃ t2 scores, evaluate_match t m = some (t2, m.opponents, scores) ∧
      (m.result = MatchResult.ONGOING → t2 = t ∧ scores = (0, 0)) ∧
      (m.result = MatchResult.WHITE_WINS → scores = (t.score_win, 0)) ∧
      (m.result = MatchResult.BLACK_WINS → scores = (0, t.score_win)) ∧
      (m.result = MatchResult.DRAW → scores = (t.score_draw, t.score_draw)) ∧
      (m.result ≠ MatchResult.ONGOING →
        sbLookup t2.scoreboard m.opponents.1 = some (g0 + 1, s0 + scores.1) ∧
        sbLookup t2.scoreboard m.opponents.2 = some (g1 + 1, s1 + scores.2)) := by
  by_cases hr : m.result = MatchResult.ONGOING
  · refine ⟨t, (0, 0), ?_, fun _ => ⟨rfl, rfl⟩, ?_, ?_, ?_, fun hc => absurd hr hc⟩
    · unfold evaluate_match
      rw [if_pos hr]
    · intro hw
      rw [hw] at hr
      exact absurd hr (by decide)
    · intro hw
      rw [hw] at hr
      exact absurd hr (by decide)
    · intro hw
      rw [hw] at hr
      exact absurd hr (by decide)
  · obtain ⟨t2, heval, hpl, hmd, hsw, hsd, hl1, hl2⟩ :=
      evaluate_match_decided t m hr hne h0 h1
    refine ⟨t2, match_scores t.score_win t.score_draw m.result, heval,
      fun hc => absurd hc hr, ?_, ?_, ?_, fun _ => ⟨hl1, hl2⟩⟩
    · intro hw
      rw [hw]
      rfl
    · intro hw
      rw [hw]
      rfl
    · intro hw
      rw [hw]
      rfl

/-- Witness for C5 at a concrete decided (white-wins) match. -/
theorem claim_C5_evaluate_match_witness :
    evaluate_match T5 m5 = some E5 ∧ E5.2.2 = (3, 0) ∧
      sbLookup E5.1.scoreboard dA = some (1, 3) ∧
      sbLookup E5.1.scoreboard dB = some (1, 0) := by
  obtain ⟨t2, scores, heval, _, hwhite, _, _, hinc⟩ :=
    claim_C5_evaluate_match T5 m5 (by decide)
      (by decide : sbLookup T5.scoreboard m5.opponents.1 = some (0, 0))
      (by decide : sbLookup T5.scoreboard m5.opponents.2 = some (0, 0))
  have hE : some E5 = evaluate_match T5 m5 := rfl
  rw [heval] at hE
  injection hE with hE2
  have hsc : scores = (3, 0) := hwhite (by decide)
  obtain ⟨hi1, hi2⟩ := hinc (by decide)
  rw [hE2]
  refine ⟨heval, hsc, ?_, ?_⟩
  · have := hi1
    rw [hsc] at this
    exact this
  · have := hi2
    rw [hsc] at this
    exact this

/-- Claim C6: evaluating the same decided match twice adds its games and
score award to both opponents twice (double-counting); no per-match
evaluated flag exists in the state, so nothing prevents the second
addition. -/
theorem claim_C6_double_count (t : CfTournament) (m : CfMatch)
    (hr : m.result ≠ MatchResult.ONGOING) (hne : m.opponents.1 ≠ m.opponents.2)
    {g0 g1 : ℕ} {s0 s1 : ℤ}
    (h0 : sbLookup t.scoreboard m.opponents.1 = some (g0, s0))
    (h1 : sbLookup t.scoreboard m.opponents.2 = some (g1, s1))
    (t1 : CfTournament) (r1 : (CfPlayer × CfPlayer) × (ℤ × ℤ))
    (hfirst : evaluate_match t m = some (t1, r1)) :
    ∃ t2 r2, evaluate_match t1 m = some (t2, r2) ∧
      sbLookup t2.scoreboard m.opponents.1 =
        some (g0 + 2, s0 + 2 * (match_scores t.score_win t.score_draw m.result).1) ∧
      sbLookup t2.scoreboard m.opponents.2 =
        some (g1 + 2, s1 + 2 * (match_scores t.score_win t.score_draw m.result).2) := by
  obtain ⟨t1x, heval, hpl, hmd, hsw, hsd, hl1, hl2⟩ :=
    evaluate_match_decided t m hr hne h0 h1
  rw [heval] at hfirst
  injection hfirst with hpair
  have ht1 : t1x = t1 := congrArg Prod.fst hpair
  subst ht1
  have h0x : sbLookup t1x.scoreboard m.opponents.1 =
      some (g0 + 1, s0 + (match_scores t1x.score_win t1x.score_draw m.result).1) := by
    rw [hsw, hsd]
    exact hl1
  have h1x : sbLookup t1x.scoreboard m.opponents.2 =
      some (g1 + 1, s1 + (match_scores t1x.score_win t1x.score_draw m.result).2) := by
    rw [hsw, hsd]
    exact hl2
  obtain ⟨t2, heval2, _, _, _, _, hl1x, hl2x⟩ :=
    evaluate_match_decided t1x m hr hne h0x h1x
  rw [hsw, hsd] at hl1x hl2x
  refine ⟨t2, _, heval2, ?_, ?_⟩
  · rw [hl1x]
    exact congrArg some (Prod.ext_iff.mpr ⟨by omega, by ring⟩)
  · rw [hl2x]
    exact congrArg some (Prod.ext_iff.mpr ⟨by omega, by ring⟩)

/-- Witness for C6: evaluating the concrete white-wins match twice leaves
the winner at games 2, score 6. -/
theorem claim_C6_double_count_witness :
    evaluate_match E5.1 m5 = some E6 ∧
      sbLookup E6.1.scoreboard dA = some (2, 6) ∧
      sbLookup E6.1.scoreboard dB = some (2, 0) := by
  obtain ⟨t2, r2, heval2, hl1, hl2⟩ :=
    claim_C6_double_count T5 m5 (by decide) (by decide)
      (by decide : sbLookup T5.scoreboard m5.opponents.1 = some (0, 0))
      (by decide : sbLookup T5.scoreboard m5.opponents.2 = some (0, 0))
      E5.1 E5.2 rfl
  have hE : some E6 = evaluate_match E5.1 m5 := rfl
  rw [heval2] at hE
  injection hE with hE2
  rw [hE2]
  refine ⟨heval2, ?_, ?_⟩
  · exact hl1.trans (by decide)
  · exact hl2.trans (by decide)

/-- Claim C7: `evaluate_scoreboard` is idempotent: a second call on the
resulting tournament (players and match results unchanged) returns
exactly the same tournament, because each call resets the scoreboard and
replays every match in schedule order. -/
theorem claim_C7_evaluate_scoreboard_idempotent (t t2 : CfTournament)
    (h : evaluate_scoreboard t = some t2) : evaluate_scoreboard t2 = some t2 := by
  rw [evaluate_scoreboard_eq] at h
  cases hF : List.foldlM (evalStepSb t.score_win t.score_draw)
      (t.players.map (fun p => (p, 0, 0))) t.matchdays.flatten with
  | none =>
    rw [hF] at h
    simp at h
  | some sb =>
    rw [hF, Option.map_some'] at h
    injection h with h2
    subst h2
    rw [evaluate_scoreboard_eq]
    dsimp only
    rw [hF, Option.map_some']

/-- Witness for C7 at a concrete tournament with one decided match. -/
theorem claim_C7_evaluate_scoreboard_idempotent_witness :
    evaluate_scoreboard T5 = some T7 ∧ evaluate_scoreboard T7 = some T7 := by
  have h : evaluate_scoreboard T5 = some T7 := by rfl
  exact ⟨h, claim_C7_evaluate_scoreboard_idempotent T5 T7 h⟩

/-- Claim C8: `swap_opponents` is an involution: applying it twice
restores the original opponent order and time-limit pair exactly; a
single application swaps the opponents together with their time limits
(and leaves the result untouched), preserving each player's association
with their own time allowance. -/
theorem claim_C8_swap_involution (m : CfMatch) :
    m.swap_opponents.swap_opponents = m ∧
    m.swap_opponents.opponents = (m.opponents.2, m.opponents.1) ∧
    m.swap_opponents.time_limits = (m.time_limits.2, m.time_limits.1) ∧
    m.swap_opponents.result = m.result := by
  refine ⟨?_, rfl, rfl, rfl⟩
  unfold CfMatch.swap_opponents
  simp

/-- Counterexample to C9 as stated: the code has no bye-handling
extension; on the odd three-player roster it generates 2 matchdays, not
the claimed N = 3. -/
theorem claim_C9_counterexample :
    (round_robin_pairing demoT3).map (fun t2 => t2.matchdays.length) = some 2 ∧
      (2 : ℕ) ≠ 3 := by
  constructor
  · rfl
  · decide

/-- Claim C9 (amended): a fully generated schedule over N >= 2 registered
participants contains exactly N - 1 matchdays for every N, odd N
included: there is no bye extension, so the odd case gets N - 1 matchdays
as well (and then misses some pairings). -/
theorem claim_C9_matchday_count (t t2 : CfTournament) (hn : 2 ≤ t.players.length)
    (hmd : t.matchdays = []) (h : round_robin_pairing t = some t2) :
    t2.matchdays.length = t.players.length - 1 := by
  obtain ⟨t3, hrr, hpl, hsw, hsd, hmd2, hsb⟩ :=
    round_robin_spec t (by intro hc; rw [hc] at hn; simp at hn) hmd
  rw [h] at hrr
  injection hrr with ht2
  subst ht2
  rw [hmd2, rrDays_length]

/-- Witness for C9 (amended) at the odd three-player tournament. -/
theorem claim_C9_matchday_count_witness : R3.matchdays.length = 2 := by
  have h := claim_C9_matchday_count demoT3 R3 (by decide) rfl (by rfl)
  exact h.trans (by decide)

/-- Counterexample to C10 as stated, on both counts.  First, with
N = 3 >= 2 distinct registered players and k = 1 call, the pair of the
second and third players appears 0 times, not k = 1 times.  Second, the
claimed mechanism — appending the generated matchdays — is false of the
code for every call after the first: a second call on the two-player
tournament appends an *empty* day list and writes both of its generated
matches into the pre-existing first day, leaving day sizes [2, 0] where
appending complete generated matchdays would leave [1, 1]. -/
theorem claim_C10_counterexample :
    ((callRoundRobin 1 demoT3).map (fun t2 => pairCount t2.matchdays dB dC) = some 0 ∧
      (0 : ℕ) ≠ 1) ∧
    ((callRoundRobin 2 demoT2).map (fun t2 => t2.matchdays.map (fun day => day.length)) =
        some [2, 0] ∧ ([2, 0] : List ℕ) ≠ [1, 1]) := by
  refine ⟨⟨?_, by decide⟩, ?_, by decide⟩
  · rfl
  · rfl

/-- Claim C10 (amended): `round_robin_pairing` grows the matchday list
without clearing it — each call appends N - 1 further day-list entries,
and on calls after the first the freshly appended entries stay empty
while the generated matches are written into the pre-existing days at
indices 0 .. N - 2 — so for every tournament with an even number
N >= 2 of distinct registered players and a fresh matchday list, k
consecutive calls leave k * (N - 1) matchday entries with every
unordered pair of players appearing k times across the schedule, and
schedule generation is not idempotent; the scoreboard, in contrast, is
reset to all-zero entries on every call. -/
theorem claim_C10_repeated_pairing (k : ℕ) (t t2 : CfTournament)
    (hn : 2 ≤ t.players.length) (he : t.players.length % 2 = 0)
    (hnd : t.players.Nodup) (hmd : t.matchdays = [])
    (h : callRoundRobin k t = some t2) :
    t2.matchdays.length = k * (t.players.length - 1) ∧
    (∀ p q, p ∈ t.players → q ∈ t.players → p ≠ q →
      pairCount t2.matchdays p q = k) ∧
    (1 ≤ k → ∀ p ∈ t.players, sbLookup t2.scoreboard p = some (0, 0)) := by
  obtain ⟨t3, hcall, hpl, hlen, hcount, hzero, hsb⟩ := callRoundRobin_spec k t hn he hnd
  rw [h] at hcall
  injection hcall with ht2
  subst ht2
  refine ⟨?_, ?_, ?_⟩
  · rw [hlen, hmd]
    simp
  · intro p q hp hq hpq
    rw [hcount p q hp hq hpq, hmd]
    have hzero2 : pairCount ([] : List (List CfMatch)) p q = 0 := rfl
    rw [hzero2]
    omega
  · intro hk p hp
    rw [hsb hk]
    exact sbLookup_map_zero t.players p hp

/-- Witness for C10 (amended): two calls on the two-player tournament
leave 2 matchdays, the single pair twice, and a zeroed scoreboard. -/
theorem claim_C10_repeated_pairing_witness :
    callRoundRobin 2 demoT2 = some K2 ∧ K2.matchdays.length = 2 ∧
      pairCount K2.matchdays dA dB = 2 ∧ sbLookup K2.scoreboard dA = some (0, 0) := by
  have hK : callRoundRobin 2 demoT2 = some K2 := by rfl
  have h := claim_C10_repeated_pairing 2 demoT2 K2
    (by decide) (by decide) (by decide) rfl hK
  refine ⟨hK, h.1.trans (by decide), ?_, h.2.2 (by decide) dA (by decide)⟩
  exact h.2.1 dA dB (by decide) (by decide) (by decide)

end Chessfriends
